import Mathlib

/-!
# raft-badger: the log store and stable store over one badger keyspace

A shallow embedding of `store.go`.  The badger database is a finite map from
byte keys to byte values, iterated in bytewise key order; a transaction collects
pending writes over a snapshot and applies them on commit.  An iterator keeps a
fixed number of items loaded and reuses their key buffers, which `DeleteRange`
hands to the transaction uncopied.  Engine failures are an explicit input
(`Faults`), so that the error paths of the code can be followed.  The entry
codec (`gobEncode`/`gobDecode`) is a parameter.
-/

namespace raftbadger

/-! ## Bytes and keys -/

abbrev Byte := Fin 256
abbrev Key := List Byte
abbrev Val := List Byte

/-- The low eight bits of a number, Go's `byte(v)`. -/
def toByte (n : Nat) : Byte := ⟨n % 256, Nat.mod_lt _ (by decide)⟩

/-- Modelled from the spec: the Key Codec `uint64ToBytes`, whose source file is
not among the sources ("a fixed-width big-endian (most-significant-byte-first)
encoding of the 64-bit index"). -/
def uint64ToBytes (u : Nat) : List Byte :=
  [toByte (u / 72057594037927936), toByte (u / 281474976710656),
   toByte (u / 1099511627776), toByte (u / 4294967296),
   toByte (u / 16777216), toByte (u / 65536), toByte (u / 256), toByte u]

/-- Modelled from the spec: the Key Codec `bytesToUint64`, whose source file is
not among the sources.  It is the inverse of `uint64ToBytes` on eight-byte
input; "decoding a wrong-width input is undefined behavior", which is `none`
here. -/
def bytesToUint64 : List Byte → Option Nat
  | [b0, b1, b2, b3, b4, b5, b6, b7] =>
    some (b7.val + b6.val * 256 + b5.val * 65536 + b4.val * 16777216
      + b3.val * 4294967296 + b2.val * 1099511627776
      + b1.val * 281474976710656 + b0.val * 72057594037927936)
  | _ => none

/-- Bytewise lexicographic "strictly before", the order badger iterates keys in. -/
def keyLt : Key → Key → Bool
  | [], [] => false
  | [], _ :: _ => true
  | _ :: _, [] => false
  | a :: as, b :: bs => decide (a < b) || (decide (a = b) && keyLt as bs)

/-- Bytewise lexicographic "before or equal". -/
def keyLe (a b : Key) : Bool := !keyLt b a

/-! ## The badger engine -/

/-- Errors of the badger engine: its own not-found sentinel, or any other failure. -/
inductive BadgerErr where
  | ErrKeyNotFound
  | other (code : Nat)
  deriving DecidableEq, Repr

/-- A pending write of a read-write transaction. -/
inductive Write where
  | set (k : Key) (v : Val)
  | delete (k : Key)
  deriving DecidableEq, Repr

/-- The committed contents of the database: the value of a key is that of its
first pair. -/
abbrev DB := List (Key × Val)

/-- The committed value of a key, if any. -/
def DB.get : DB → Key → Option Val
  | [], _ => none
  | (k', v) :: rest, k => if k' = k then some v else DB.get rest k

/-- The effect of one committed write. -/
def applyWrite (s : DB) : Write → DB
  | .set k v => (k, v) :: s.filter (fun p => decide (p.1 ≠ k))
  | .delete k => s.filter (fun p => decide (p.1 ≠ k))

/-- The keys an iterator visits, each once, in ascending bytewise order. -/
def sortedKeys (s : DB) : List Key :=
  ((s.map Prod.fst).dedup).insertionSort (fun a b => keyLe a b = true)

/-- The keys visited by `itr.Rewind(); itr.Next() ...` in the given direction. -/
def iterKeys (s : DB) (reverse : Bool) : List Key :=
  if reverse then (sortedKeys s).reverse else sortedKeys s

/-- The keys visited by `itr.Seek(k); itr.Next() ...` of a forward iterator:
those at or after `k`. -/
def seekKeys (s : DB) (k : Key) : List Key :=
  (sortedKeys s).filter (fun key => keyLe k key)

/-- The failures the engine reports during one call of the store: each
primitive may fail depending on its arguments. -/
structure Faults where
  get : Key → Option BadgerErr
  value : Key → Option BadgerErr
  set : Key → Val → Option BadgerErr
  delete : Key → Option BadgerErr
  commit : List Write → Option BadgerErr

/-- An engine that never fails. -/
def noFaults : Faults :=
  ⟨fun _ => none, fun _ => none, fun _ _ => none, fun _ => none, fun _ => none⟩

/-- The lookup `txn.Get(k)` on a snapshot: the item's stored value, badger's
`ErrKeyNotFound` when the key is absent, or an engine failure. -/
def txnGet (f : Faults) (s : DB) (k : Key) : Except BadgerErr Val :=
  match f.get k with
  | some e => .error e
  | none =>
    match s.get k with
    | none => .error .ErrKeyNotFound
    | some v => .ok v

/-- The read `item.Value()` of the item of key `k` holding `v`: `(val, err)`,
where `val` is `none` for Go's nil slice, returned for an empty stored value
and on failure. -/
def itemValue (f : Faults) (k : Key) (v : Val) : Option Val × Option BadgerErr :=
  match f.value k with
  | some e => (none, some e)
  | none => (if v = [] then none else some v, none)

/-- The write `txn.Set(k, v)`: the error, and the pending writes afterwards. -/
def txnSet (f : Faults) (pending : List Write) (k : Key) (v : Val) :
    Option BadgerErr × List Write :=
  match f.set k v with
  | some e => (some e, pending)
  | none => (none, pending ++ [.set k v])

/-- The call `txn.Commit(nil)`: with nothing pending it succeeds at once;
otherwise the pending writes are applied in order, or none is on failure. -/
def txnCommit (f : Faults) (s : DB) (pending : List Write) : Option BadgerErr × DB :=
  match pending with
  | [] => (none, s)
  | _ :: _ =>
    match f.commit pending with
    | some e => (some e, s)
    | none => (none, pending.foldl applyWrite s)

/-! ## The store -/

/-- Errors returned by the store. -/
inductive Error where
  | ErrLogNotFound
  | ErrKeyNotFound
  | badger (e : BadgerErr)
  | gob (code : Nat)
  deriving DecidableEq, Repr

/-- The record `raft.Log`. -/
structure Log where
  Index : Nat
  Term : Nat
  Typ : Nat
  Data : List Byte
  deriving DecidableEq, Repr

/-- The entry codec `gobEncode`/`gobDecode`, whose source file is not among the
sources. -/
structure Codec where
  gobEncode : Log → Except Nat Val
  gobDecode : Val → Except Nat Log

/-- The scan `store.firstIndex`: `(index, error)`, or `none` where the key
decoder is undefined. -/
def firstIndex (s : DB) (reverse : Bool) : Option (Nat × Option Error) :=
  match iterKeys s reverse with
  | key :: _ => (bytesToUint64 key).map (fun n => (n, none))
  | [] => some (0, none)

/-- FirstIndex returns the first known index from the Raft log. -/
def FirstIndex (s : DB) : Option (Nat × Option Error) := firstIndex s false

/-- LastIndex returns the last known index from the Raft log. -/
def LastIndex (s : DB) : Option (Nat × Option Error) := firstIndex s true

/-- GetLog retrieves the log at an index: the returned error, or the entry
decoded into `log`. -/
def GetLog (f : Faults) (c : Codec) (s : DB) (idx : Nat) : Except Error Log :=
  match txnGet f s (uint64ToBytes idx) with
  | .error e => if e = .ErrKeyNotFound then .error .ErrLogNotFound else .error (.badger e)
  | .ok v =>
    match (itemValue f (uint64ToBytes idx) v).1 with
    | none => .error .ErrLogNotFound
    | some val =>
      match c.gobDecode val with
      | .error e => .error (.gob e)
      | .ok log => .ok log

/-- StoreLog stores a single raft log: the returned error and the database
after the deferred commit. -/
def StoreLog (f : Faults) (c : Codec) (s : DB) (log : Log) : Option Error × DB :=
  match c.gobEncode log with
  | .error e => (some (.gob e), s)
  | .ok buf =>
    let r := txnSet f [] (uint64ToBytes log.Index) buf
    (r.1.map .badger, (txnCommit f s r.2).2)

/-- StoreLogs stores a set of raft logs, one transaction each. -/
def StoreLogs (f : Faults) (c : Codec) : DB → List Log → Option Error × DB
  | s, [] => (none, s)
  | s, log :: logs =>
    match c.gobEncode log with
    | .error e => (some (.gob e), s)
    | .ok buf =>
      match txnSet f [] (uint64ToBytes log.Index) buf with
      | (some _, _) => (none, s)
      | (none, pending) => StoreLogs f c (txnCommit f s pending).2 logs

/-- The number of items a badger iterator keeps loaded, `PrefetchSize` of
`badger.DefaultIteratorOptions`. -/
def prefetchSize : Nat := 100

/-- The engine's reuse of an item's key buffer for another key,
`append(buf[:0], src...)`, as seen through a slice of the buffer taken before:
a key that fits is written over the front of the buffer, a longer key goes to
a new buffer and leaves this one as it is.  The buffers the loop reuses held a
visited key, eight bytes wide, in a buffer of that capacity. -/
def refill (buf src : Key) : Key :=
  if src.length ≤ buf.length then src ++ buf.drop src.length else buf

/-- The loop of `DeleteRange` from position `j` of the scan, over the keys the
iterator still has to visit.  The iterator keeps `prefetchSize` items loaded,
the item at position `j` in key buffer `j % prefetchSize`.  The call
`txn.Delete(key)` is handed the key buffer of the current item, not a copy,
and `itr.Next()` then loads the key `prefetchSize` places ahead, if there is
one, into that buffer.  The result is the contents of the key buffers and the
buffers named by the pending deletions at the end of the loop, the error of a
failed deletion, or `none` where the key decoder is undefined. -/
def deleteLoopFrom (f : Faults) (max : Nat) :
    List Key → Nat → List Key → List Nat →
      Option (Except BadgerErr (List Key × List Nat))
  | [], _, bufs, pending => some (.ok (bufs, pending))
  | key :: rest, j, bufs, pending =>
    match bytesToUint64 key with
    | none => none
    | some n =>
      if n > max then some (.ok (bufs, pending))
      else
        match f.delete key with
        | some e => some (.error e)
        | none =>
          deleteLoopFrom f max rest (j + 1)
            (match rest.get? (prefetchSize - 1) with
              | none => bufs
              | some src =>
                bufs.set (j % prefetchSize) (refill (bufs.getD (j % prefetchSize) []) src))
            (pending ++ [j % prefetchSize])

/-- The loop of `DeleteRange` over the keys the iterator visits after
`itr.Seek`: the pending writes of the transaction at the end of the loop, each
deletion with the key its buffer then holds, the error of a failed deletion,
or `none` where the key decoder is undefined. -/
def deleteLoop (f : Faults) (max : Nat) (keys : List Key) (pending : List Write) :
    Option (Except BadgerErr (List Write)) :=
  match deleteLoopFrom f max keys 0 (keys.take prefetchSize) [] with
  | none => none
  | some (.error e) => some (.error e)
  | some (.ok (bufs, deleted)) =>
    some (.ok (pending ++ deleted.map (fun b => Write.delete (bufs.getD b []))))

/-- DeleteRange deletes logs within a given range inclusively: the returned
error and the database afterwards, or `none` where the key decoder is
undefined. -/
def DeleteRange (f : Faults) (s : DB) (min max : Nat) : Option (Option Error × DB) :=
  match deleteLoop f max (seekKeys s (uint64ToBytes min)) [] with
  | none => none
  | some (.error e) => some (some (.badger e), s)
  | some (.ok pending) =>
    let r := txnCommit f s pending
    some (r.1.map .badger, r.2)

/-- Set sets a key/value pair: the returned error and the database after the
deferred commit. -/
def Set (f : Faults) (s : DB) (k : Key) (v : Val) : Option Error × DB :=
  let r := txnSet f [] k v
  (r.1.map .badger, (txnCommit f s r.2).2)

/-- Get retrieves a value by key: `(value, error)`, the value `none` for nil. -/
def Get (f : Faults) (s : DB) (k : Key) : Option Val × Option Error :=
  match txnGet f s k with
  | .error e =>
    if e = .ErrKeyNotFound then (none, some .ErrKeyNotFound) else (none, some (.badger e))
  | .ok v =>
    match (itemValue f k v).1 with
    | none => (none, some .ErrKeyNotFound)
    | some val => (some val, none)

/-- SetUint64 is like Set, but handles uint64 values. -/
def SetUint64 (f : Faults) (s : DB) (key : Key) (val : Nat) : Option Error × DB :=
  Set f s key (uint64ToBytes val)

/-- GetUint64 is like Get, but handles uint64 values: `(value, error)`, or
`none` where the key decoder is undefined. -/
def GetUint64 (f : Faults) (s : DB) (key : Key) : Option (Nat × Option Error) :=
  match Get f s key with
  | (_, some err) => some (0, some err)
  | (val, none) => (bytesToUint64 (val.getD [])).map (fun n => (n, none))

/-- The index `i` has an entry in the database. -/
def present (s : DB) (i : Nat) : Prop := s.get (uint64ToBytes i) ≠ none

instance (s : DB) (i : Nat) : Decidable (present s i) := by
  unfold present; infer_instance

/-- The database holds log entries only: every key is an index key. -/
def logsOnly (s : DB) : Prop := ∀ p ∈ s, p.1.length = 8

instance (s : DB) : Decidable (logsOnly s) := by
  unfold logsOnly; infer_instance


/-- A call of the log interface that writes. -/
inductive LogOp where
  | StoreLog (log : Log)
  | StoreLogs (logs : List Log)
  | DeleteRange (min max : Nat)

/-- The database after one call, made with the given engine failures; `none`
where the call is undefined. -/
def runLogOp (c : Codec) (s : DB) : Faults × LogOp → Option DB
  | (f, .StoreLog log) => some (StoreLog f c s log).2
  | (f, .StoreLogs logs) => some (StoreLogs f c s logs).2
  | (f, .DeleteRange min max) => (DeleteRange f s min max).map Prod.snd

/-- The database after a sequence of calls. -/
def runLogOps (c : Codec) : DB → List (Faults × LogOp) → Option DB
  | s, [] => some s
  | s, step :: steps =>
    match runLogOp c s step with
    | none => none
    | some s' => runLogOps c s' steps

/-- Five log entries, at the indices 1 to 5. -/
def demoLogs : DB :=
  [(uint64ToBytes 1, [1]), (uint64ToBytes 2, [2]), (uint64ToBytes 3, [3]),
   (uint64ToBytes 4, [4]), (uint64ToBytes 5, [5])]

/-- A small entry codec for the examples: a tag byte, then the low bytes of the
index, the term and the type, then the data. -/
def demoCodec : Codec where
  gobEncode := fun l => .ok (1 :: toByte l.Index :: toByte l.Term :: toByte l.Typ :: l.Data)
  gobDecode := fun v =>
    match v with
    | 1 :: i :: t :: ty :: data => .ok ⟨i.val, t.val, ty.val, data⟩
    | _ => .error 0

/-- The state machine per index: whether the index `i`, live or not before, is
live after the calls.  A store of `i` makes it live, a `DeleteRange` covering
`i` makes it not live. -/
def liveAfter (i : Nat) : Bool → List LogOp → Bool
  | b, [] => b
  | b, .StoreLog log :: ops => liveAfter i (b || decide (log.Index = i)) ops
  | b, .StoreLogs logs :: ops =>
    liveAfter i (b || logs.any (fun l => decide (l.Index = i))) ops
  | b, .DeleteRange min max :: ops =>
    liveAfter i (b && !(decide (min ≤ i) && decide (i ≤ max))) ops

/-- The key decodes to an index at most `max`. -/
def inRange (max : Nat) (k : Key) : Bool :=
  match bytesToUint64 k with
  | some n => decide (n ≤ max)
  | none => false

/-- The keys of the database at or after the key of `min` that decode to an
index at most `max`. -/
def rangeKeys (s : DB) (min max : Nat) : List Key :=
  (seekKeys s (uint64ToBytes min)).filter (inRange max)

/-- An engine whose write of the key of index 2 fails. -/
def setFailsAt2 : Faults :=
  ⟨fun _ => none, fun _ => none,
   fun k _ => if k = uint64ToBytes 2 then some (.other 1) else none,
   fun _ => none, fun _ => none⟩

/-- An engine whose deletion of the key of index 3 fails. -/
def deleteFailsAt3 : Faults :=
  ⟨fun _ => none, fun _ => none, fun _ _ => none,
   fun k => if k = uint64ToBytes 3 then some (.other 1) else none, fun _ => none⟩

/-- An engine whose commits fail. -/
def commitFails : Faults :=
  ⟨fun _ => none, fun _ => none, fun _ _ => none, fun _ => none, fun _ => some (.other 1)⟩

/-- The entries with the indices 1 to 101. -/
def logs101 : List Log := (List.range 101).map (fun i => ⟨i + 1, 1, 0, []⟩)

/-- Each key of the list is strictly before the next one. -/
def ascending : List Key → Bool
  | [] => true
  | [_] => true
  | a :: b :: rest => keyLt a b && ascending (b :: rest)

/-- The index keys of the indices 1 to 101, in ascending order. -/
def keys101 : List Key := (List.range 101).map (fun i => uint64ToBytes (i + 1))

/-- An engine whose reads of an item's value fail. -/
def valueFails : Faults :=
  ⟨fun _ => none, fun _ => some (.other 1), fun _ _ => none, fun _ => none, fun _ => none⟩

/-! ## The key codec -/

theorem uint64ToBytes_length (u : Nat) : (uint64ToBytes u).length = 8 := rfl

theorem bytesToUint64_uint64ToBytes (u : Nat) :
    bytesToUint64 (uint64ToBytes u) = some (u % 18446744073709551616) := by
  simp only [uint64ToBytes, bytesToUint64, toByte, Option.some.injEq]
  omega

theorem bytesToUint64_of_lt {u : Nat} (h : u < 18446744073709551616) :
    bytesToUint64 (uint64ToBytes u) = some u := by
  rw [bytesToUint64_uint64ToBytes, Nat.mod_eq_of_lt h]

theorem bytesToUint64_isSome_of_length {k : Key} (h : k.length = 8) :
    ∃ n, bytesToUint64 k = some n := by
  match k, h with
  | [b0, b1, b2, b3, b4, b5, b6, b7], _ => exact ⟨_, rfl⟩

theorem length_of_bytesToUint64 {k : Key} {n : Nat} (h : bytesToUint64 k = some n) :
    k.length = 8 := by
  unfold bytesToUint64 at h
  split at h
  · rfl
  · exact absurd h (by simp)

theorem uint64ToBytes_of_bytesToUint64 {k : Key} {n : Nat} (h : bytesToUint64 k = some n) :
    uint64ToBytes n = k ∧ n < 18446744073709551616 := by
  unfold bytesToUint64 at h
  split at h
  · rename_i b0 b1 b2 b3 b4 b5 b6 b7
    simp only [Option.some.injEq] at h
    subst h
    have h0 := b0.isLt; have h1 := b1.isLt; have h2 := b2.isLt; have h3 := b3.isLt
    have h4 := b4.isLt; have h5 := b5.isLt; have h6 := b6.isLt; have h7 := b7.isLt
    refine ⟨?_, by omega⟩
    simp only [uint64ToBytes, toByte, List.cons.injEq, and_true, Fin.ext_iff]
    refine ⟨?_, ?_, ?_, ?_, ?_, ?_, ?_, ?_⟩ <;> omega
  · exact absurd h (by simp)

/-! ## The key order -/

theorem keyLt_irrefl (a : Key) : keyLt a a = false := by
  induction a with
  | nil => rfl
  | cons x xs ih => simp [keyLt, ih]

theorem keyLt_trans {a b c : Key} (hab : keyLt a b = true) (hbc : keyLt b c = true) :
    keyLt a c = true := by
  induction a generalizing b c with
  | nil =>
    cases b with
    | nil => simp [keyLt] at hab
    | cons y ys =>
      cases c with
      | nil => simp [keyLt] at hbc
      | cons z zs => simp [keyLt]
  | cons x xs ih =>
    cases b with
    | nil => simp [keyLt] at hab
    | cons y ys =>
      cases c with
      | nil => simp [keyLt] at hbc
      | cons z zs =>
        simp only [keyLt, Bool.or_eq_true, Bool.and_eq_true, decide_eq_true_eq] at hab hbc ⊢
        rcases hab with hab | ⟨rfl, hab⟩
        · rcases hbc with hbc | ⟨rfl, _⟩
          · exact Or.inl (lt_trans hab hbc)
          · exact Or.inl hab
        · rcases hbc with hbc | ⟨rfl, hbc⟩
          · exact Or.inl hbc
          · exact Or.inr ⟨rfl, ih hab hbc⟩

theorem keyLt_trichotomy (a b : Key) : keyLt a b = true ∨ a = b ∨ keyLt b a = true := by
  induction a generalizing b with
  | nil =>
    cases b with
    | nil => exact Or.inr (Or.inl rfl)
    | cons y ys => exact Or.inl rfl
  | cons x xs ih =>
    cases b with
    | nil => exact Or.inr (Or.inr rfl)
    | cons y ys =>
      simp only [keyLt, Bool.or_eq_true, Bool.and_eq_true, decide_eq_true_eq, List.cons.injEq]
      rcases lt_trichotomy x y with h | h | h
      · exact Or.inl (Or.inl h)
      · subst h
        rcases ih ys with h | h | h
        · exact Or.inl (Or.inr ⟨rfl, h⟩)
        · exact Or.inr (Or.inl ⟨rfl, h⟩)
        · exact Or.inr (Or.inr (Or.inr ⟨rfl, h⟩))
      · exact Or.inr (Or.inr (Or.inl h))

theorem keyLe_refl (a : Key) : keyLe a a = true := by
  simp [keyLe, keyLt_irrefl]

theorem keyLe_total (a b : Key) : keyLe a b = true ∨ keyLe b a = true := by
  unfold keyLe
  rcases keyLt_trichotomy a b with h | h | h
  · left
    cases hba : keyLt b a with
    | false => rfl
    | true => have := keyLt_trans h hba; simp [keyLt_irrefl] at this
  · subst h; simp [keyLt_irrefl]
  · cases hab : keyLt a b with
    | false => right; simp
    | true => have := keyLt_trans h hab; simp [keyLt_irrefl] at this

theorem keyLe_trans {a b c : Key} (hab : keyLe a b = true) (hbc : keyLe b c = true) :
    keyLe a c = true := by
  unfold keyLe at *
  cases hca : keyLt c a with
  | false => rfl
  | true =>
    rcases keyLt_trichotomy a b with h | h | h
    · have := keyLt_trans hca h; simp [this] at hbc
    · subst h; simp [hca] at hbc
    · simp [h] at hab

theorem keyLe_antisymm {a b : Key} (hab : keyLe a b = true) (hba : keyLe b a = true) :
    a = b := by
  unfold keyLe at *
  rcases keyLt_trichotomy a b with h | h | h
  · simp [h] at hba
  · exact h
  · simp [h] at hab

theorem keyLt_iff_of_decode {k1 k2 : Key} {a b : Nat}
    (h1 : bytesToUint64 k1 = some a) (h2 : bytesToUint64 k2 = some b) :
    keyLt k1 k2 = true ↔ a < b := by
  unfold bytesToUint64 at h1 h2
  split at h1
  · split at h2
    · rename_i b0 b1 b2 b3 b4 b5 b6 b7 _ c0 c1 c2 c3 c4 c5 c6 c7
      simp only [Option.some.injEq] at h1 h2
      subst h1 h2
      have h0 := b0.isLt; have h1 := b1.isLt; have h2 := b2.isLt; have h3 := b3.isLt
      have h4 := b4.isLt; have h5 := b5.isLt; have h6 := b6.isLt; have h7 := b7.isLt
      have g0 := c0.isLt; have g1 := c1.isLt; have g2 := c2.isLt; have g3 := c3.isLt
      have g4 := c4.isLt; have g5 := c5.isLt; have g6 := c6.isLt; have g7 := c7.isLt
      simp only [keyLt, Bool.or_eq_true, Bool.and_eq_true, decide_eq_true_eq, Fin.lt_def,
        Fin.ext_iff, Bool.or_false, Bool.false_eq_true, and_false, or_false]
      omega
    · exact absurd h2 (by simp)
  · exact absurd h1 (by simp)

/-! ## The database as a finite map -/

theorem get_filter (s : DB) (q : Key → Bool) (k : Key) :
    DB.get (s.filter (fun p => q p.1)) k = if q k = true then DB.get s k else none := by
  induction s with
  | nil => simp [DB.get]
  | cons p rest ih =>
    obtain ⟨k', v⟩ := p
    by_cases hq : q k' = true
    · simp only [List.filter_cons, hq, if_true, DB.get]
      by_cases hk : k' = k
      · subst hk; simp [hq]
      · simp only [hk, if_false, ih]
    · simp only [List.filter_cons, hq, if_false, DB.get, ih, Bool.false_eq_true]
      by_cases hk : k' = k
      · subst hk; simp [hq]
      · simp [hk]

theorem get_applyWrite_set (s : DB) (k : Key) (v : Val) (k' : Key) :
    DB.get (applyWrite s (.set k v)) k' = if k = k' then some v else DB.get s k' := by
  simp only [applyWrite, DB.get]
  by_cases h : k = k'
  · simp [h]
  · have := get_filter s (fun x => decide (x ≠ k)) k'
    simp only [h, if_false]
    rw [this]
    simp [Ne.symm h]

theorem get_applyWrite_delete (s : DB) (k : Key) (k' : Key) :
    DB.get (applyWrite s (.delete k)) k' = if k = k' then none else DB.get s k' := by
  simp only [applyWrite]
  have := get_filter s (fun x => decide (x ≠ k)) k'
  rw [this]
  by_cases h : k = k'
  · simp [h]
  · simp [h, Ne.symm h]

theorem get_foldl_delete (ks : List Key) (s : DB) (k : Key) :
    DB.get ((ks.map Write.delete).foldl applyWrite s) k
      = if k ∈ ks then none else DB.get s k := by
  induction ks generalizing s with
  | nil => simp
  | cons a as ih =>
    simp only [List.map_cons, List.foldl_cons, ih, get_applyWrite_delete, List.mem_cons]
    by_cases h1 : k ∈ as
    · simp [h1]
    · by_cases h2 : a = k
      · simp [h2]
      · simp [h1, h2, Ne.symm h2]

theorem mem_of_mem_foldl_delete (ks : List Key) (s : DB) (p : Key × Val)
    (h : p ∈ (ks.map Write.delete).foldl applyWrite s) : p ∈ s := by
  induction ks generalizing s with
  | nil => simpa using h
  | cons a as ih =>
    simp only [List.map_cons, List.foldl_cons] at h
    have := ih _ h
    simp only [applyWrite, List.mem_filter] at this
    exact this.1

theorem mem_keys_iff (s : DB) (k : Key) : k ∈ s.map Prod.fst ↔ DB.get s k ≠ none := by
  induction s with
  | nil => simp [DB.get]
  | cons p rest ih =>
    obtain ⟨k', v⟩ := p
    simp only [List.map_cons, List.mem_cons, DB.get]
    by_cases h : k' = k
    · simp [h]
    · simp only [h, if_false, ← ih]
      constructor
      · rintro (h' | h')
        · exact absurd h'.symm h
        · exact h'
      · exact Or.inr

theorem mem_sortedKeys (s : DB) (k : Key) : k ∈ sortedKeys s ↔ DB.get s k ≠ none := by
  unfold sortedKeys
  rw [(List.perm_insertionSort _ _).mem_iff, List.mem_dedup, mem_keys_iff]

theorem sortedKeys_sorted (s : DB) :
    (sortedKeys s).Pairwise (fun a b => keyLe a b = true) := by
  haveI : IsTotal Key (fun a b => keyLe a b = true) := ⟨keyLe_total⟩
  haveI : IsTrans Key (fun a b => keyLe a b = true) :=
    ⟨fun _ _ _ h1 h2 => keyLe_trans h1 h2⟩
  exact List.sorted_insertionSort _ _

theorem length_of_get {s : DB} (hs : logsOnly s) {k : Key} (h : DB.get s k ≠ none) :
    k.length = 8 := by
  rw [← mem_keys_iff] at h
  obtain ⟨p, hp, rfl⟩ := List.mem_map.1 h
  exact hs p hp

/-! ## The loop of DeleteRange -/

theorem filter_inRange_eq_nil {max n : Nat} {key : Key} {rest : List Key}
    (hkey : bytesToUint64 key = some n) (hn : n > max)
    (hlen : ∀ k ∈ rest, k.length = 8)
    (hle : ∀ k ∈ rest, keyLe key k = true) :
    rest.filter (inRange max) = [] := by
  rw [List.filter_eq_nil_iff]
  intro k hk
  obtain ⟨m, hm⟩ := bytesToUint64_isSome_of_length (hlen k hk)
  have h1 := hle k hk
  simp only [keyLe, Bool.not_eq_true', ← Bool.not_eq_true, keyLt_iff_of_decode hm hkey] at h1
  simp only [inRange, hm, decide_eq_true_eq]
  omega

theorem deleteLoopFrom_cases (f : Faults) (max : Nat) :
    ∀ (L : List Key) (j : Nat) (bufs : List Key) (pending : List Nat),
      (∀ k ∈ L, k.length = 8) →
      (∃ e, deleteLoopFrom f max L j bufs pending = some (.error e)) ∨
      (∃ r, deleteLoopFrom f max L j bufs pending = some (.ok r)) := by
  intro L
  induction L with
  | nil => intro j bufs pending _; right; exact ⟨_, rfl⟩
  | cons key rest ih =>
    intro j bufs pending hlen
    obtain ⟨n, hn⟩ := bytesToUint64_isSome_of_length (hlen key (List.mem_cons_self _ _))
    have hlen' : ∀ k ∈ rest, k.length = 8 := fun k hk => hlen k (List.mem_cons_of_mem _ hk)
    unfold deleteLoopFrom
    simp only [hn]
    by_cases hmax : n > max
    · right; simp only [hmax, if_true]; exact ⟨_, rfl⟩
    · simp only [hmax, if_false]
      cases hd : f.delete key with
      | some e => left; exact ⟨e, rfl⟩
      | none => exact ih _ _ _ hlen'

theorem deleteLoopFrom_fault (f : Faults) (max : Nat) :
    ∀ (L : List Key) (j : Nat) (bufs : List Key) (pending : List Nat),
      (∀ k ∈ L, k.length = 8) →
      L.Pairwise (fun a b => keyLe a b = true) →
      (∃ k ∈ L.filter (inRange max), f.delete k ≠ none) →
      ∃ k e, k ∈ L.filter (inRange max) ∧ f.delete k = some e ∧
        deleteLoopFrom f max L j bufs pending = some (.error e) := by
  intro L
  induction L with
  | nil => intro j bufs pending _ _ h; simp at h
  | cons key rest ih =>
    intro j bufs pending hlen hsorted hex
    obtain ⟨n, hn⟩ := bytesToUint64_isSome_of_length (hlen key (List.mem_cons_self _ _))
    have hlen' : ∀ k ∈ rest, k.length = 8 := fun k hk => hlen k (List.mem_cons_of_mem _ hk)
    rw [List.pairwise_cons] at hsorted
    by_cases hmax : n > max
    · have h0 : inRange max key = false := by
        simp only [inRange, hn, decide_eq_false_iff_not]; omega
      simp [List.filter_cons, h0, filter_inRange_eq_nil hn hmax hlen' hsorted.1] at hex
    · have h0 : inRange max key = true := by
        simp only [inRange, hn, decide_eq_true_eq]; omega
      cases hd : f.delete key with
      | some e =>
        refine ⟨key, e, ?_, hd, ?_⟩
        · simp [List.filter_cons, h0]
        · unfold deleteLoopFrom
          simp only [hn, hmax, if_false, hd]
      | none =>
        have hex' : ∃ k ∈ rest.filter (inRange max), f.delete k ≠ none := by
          obtain ⟨k, hk, hne⟩ := hex
          simp only [List.filter_cons, h0, if_true, List.mem_cons] at hk
          rcases hk with rfl | hk
          · exact absurd hd hne
          · exact ⟨k, hk, hne⟩
        unfold deleteLoopFrom
        simp only [hn, hmax, if_false, hd]
        obtain ⟨k, e, hk, hke, hloop⟩ := ih (j + 1) _ (pending ++ [j % prefetchSize])
          hlen' hsorted.2 hex'
        refine ⟨k, e, ?_, hke, hloop⟩
        simp only [List.filter_cons, h0, if_true, List.mem_cons]; exact Or.inr hk

theorem getD_append_cons (pre : List Key) (key : Key) (rest : List Key) :
    (pre ++ key :: rest).getD pre.length [] = key := by
  induction pre with
  | nil => rfl
  | cons a as ih => simpa using ih

theorem deleteLoopFrom_small (f : Faults) (max : Nat) :
    ∀ (L pre : List Key) (pending : List Nat) (r : List Key × List Nat),
      (pre ++ L).length ≤ prefetchSize →
      deleteLoopFrom f max L pre.length (pre ++ L) pending = some (.ok r) →
      r.1 = pre ++ L ∧
      ∃ ks : List Key,
        r.2.map (fun b => (pre ++ L).getD b [])
          = pending.map (fun b => (pre ++ L).getD b []) ++ ks ∧
        ∀ k ∈ ks, k ∈ L ∧ inRange max k = true := by
  intro L
  induction L with
  | nil =>
    intro pre pending r _ h
    simp only [deleteLoopFrom, Option.some.injEq, Except.ok.injEq] at h
    subst h
    exact ⟨rfl, [], by simp, by simp⟩
  | cons key rest ih =>
    intro pre pending r hlen h
    unfold deleteLoopFrom at h
    cases hn : bytesToUint64 key with
    | none => simp [hn] at h
    | some n =>
      simp only [hn] at h
      by_cases hmax : n > max
      · simp only [hmax, if_true, Option.some.injEq, Except.ok.injEq] at h
        subst h
        exact ⟨rfl, [], by simp, by simp⟩
      · simp only [hmax, if_false] at h
        cases hd : f.delete key with
        | some e => simp [hd] at h
        | none =>
          simp only [hd] at h
          have hl : pre.length + (rest.length + 1) ≤ prefetchSize := by
            simpa [List.length_append] using hlen
          have hrest : rest.get? (prefetchSize - 1) = none := by
            rw [List.get?_eq_none]; omega
          have hmod : pre.length % prefetchSize = pre.length := Nat.mod_eq_of_lt (by omega)
          simp only [hrest, hmod] at h
          have hassoc : pre ++ key :: rest = (pre ++ [key]) ++ rest := by simp
          have hlen1 : pre.length + 1 = (pre ++ [key]).length := by simp
          rw [hassoc, hlen1] at h
          obtain ⟨h1, ks, h2, h3⟩ := ih (pre ++ [key]) (pending ++ [pre.length]) r
            (by rw [← hassoc]; exact hlen) h
          have hkey : (pre ++ key :: rest).getD pre.length [] = key :=
            getD_append_cons pre key rest
          refine ⟨by rw [h1, hassoc], key :: ks, ?_, ?_⟩
          · rw [hassoc, h2, ← hassoc]
            simp only [List.map_append, List.map_cons, List.map_nil, hkey, List.append_assoc,
              List.singleton_append]
          · intro k hk
            rw [List.mem_cons] at hk
            rcases hk with rfl | hk
            · refine ⟨List.mem_cons_self _ _, ?_⟩
              simp only [inRange, hn, decide_eq_true_eq]; omega
            · exact ⟨List.mem_cons_of_mem _ (h3 k hk).1, (h3 k hk).2⟩

theorem deleteLoop_cases (f : Faults) (max : Nat) (L : List Key) (pending : List Write)
    (hlen : ∀ k ∈ L, k.length = 8) :
    (∃ e, deleteLoop f max L pending = some (.error e)) ∨
    (∃ ks : List Key, deleteLoop f max L pending
      = some (.ok (pending ++ ks.map Write.delete))) := by
  unfold deleteLoop
  rcases deleteLoopFrom_cases f max L 0 (L.take prefetchSize) [] hlen with ⟨e, he⟩ | ⟨r, hr⟩
  · left; exact ⟨e, by rw [he]⟩
  · right
    obtain ⟨bufs, deleted⟩ := r
    exact ⟨deleted.map (fun b => bufs.getD b []), by rw [hr]; simp [List.map_map]⟩

theorem deleteLoop_fault (f : Faults) (max : Nat) (L : List Key) (pending : List Write)
    (hlen : ∀ k ∈ L, k.length = 8) (hsorted : L.Pairwise (fun a b => keyLe a b = true))
    (hex : ∃ k ∈ L.filter (inRange max), f.delete k ≠ none) :
    ∃ k e, k ∈ L.filter (inRange max) ∧ f.delete k = some e ∧
      deleteLoop f max L pending = some (.error e) := by
  obtain ⟨k, e, hk, hke, hloop⟩ :=
    deleteLoopFrom_fault f max L 0 (L.take prefetchSize) [] hlen hsorted hex
  exact ⟨k, e, hk, hke, by unfold deleteLoop; rw [hloop]⟩

theorem deleteLoop_keys (f : Faults) (max : Nat) (L : List Key) (pending result : List Write)
    (hsmall : L.length ≤ prefetchSize)
    (h : deleteLoop f max L pending = some (.ok result)) :
    ∃ ks : List Key, result = pending ++ ks.map Write.delete ∧
      ∀ k ∈ ks, k ∈ L ∧ inRange max k = true := by
  unfold deleteLoop at h
  rw [List.take_of_length_le hsmall] at h
  cases hloop : deleteLoopFrom f max L 0 L [] with
  | none => simp [hloop] at h
  | some res =>
    cases res with
    | error e => simp [hloop] at h
    | ok r =>
      obtain ⟨bufs, deleted⟩ := r
      simp only [hloop, Option.some.injEq, Except.ok.injEq] at h
      obtain ⟨h1, ks, h2, h3⟩ := deleteLoopFrom_small f max L [] [] (bufs, deleted)
        (by simpa using hsmall) (by simpa using hloop)
      simp only [List.nil_append, List.map_nil] at h1 h2
      refine ⟨ks, ?_, h3⟩
      rw [← h, ← h2, h1]
      simp [List.map_map]

/-! ## Index keys in the database -/

theorem keyLe_uint64ToBytes {a b : Nat} (ha : a < 18446744073709551616)
    (hb : b < 18446744073709551616) :
    keyLe (uint64ToBytes a) (uint64ToBytes b) = true ↔ a ≤ b := by
  have h := keyLt_iff_of_decode (bytesToUint64_of_lt hb) (bytesToUint64_of_lt ha)
  simp only [keyLe, Bool.not_eq_true', ← Bool.not_eq_true, h]
  omega

theorem inRange_uint64ToBytes {i : Nat} (max : Nat) (hi : i < 18446744073709551616) :
    inRange max (uint64ToBytes i) = true ↔ i ≤ max := by
  simp [inRange, bytesToUint64_of_lt hi]

theorem mem_seekKeys (s : DB) (k0 k : Key) :
    k ∈ seekKeys s k0 ↔ DB.get s k ≠ none ∧ keyLe k0 k = true := by
  simp [seekKeys, List.mem_filter, mem_sortedKeys]

theorem seekKeys_sorted (s : DB) (k0 : Key) :
    (seekKeys s k0).Pairwise (fun a b => keyLe a b = true) :=
  (sortedKeys_sorted s).filter _

theorem seekKeys_length {s : DB} (hs : logsOnly s) (k0 : Key) :
    ∀ k ∈ seekKeys s k0, k.length = 8 := by
  intro k hk
  exact length_of_get hs ((mem_seekKeys s k0 k).1 hk).1

theorem mem_rangeKeys_index {s : DB} {min max i : Nat} (hmin : min < 18446744073709551616)
    (hi : i < 18446744073709551616) :
    uint64ToBytes i ∈ rangeKeys s min max ↔ present s i ∧ min ≤ i ∧ i ≤ max := by
  simp only [rangeKeys, List.mem_filter, mem_seekKeys, keyLe_uint64ToBytes hmin hi,
    inRange_uint64ToBytes max hi, present, and_assoc]

theorem mem_rangeKeys_elim {s : DB} {min max : Nat} (hmin : min < 18446744073709551616)
    {k : Key} (hk : k ∈ rangeKeys s min max) :
    ∃ i, i < 18446744073709551616 ∧ k = uint64ToBytes i ∧ present s i ∧ min ≤ i ∧ i ≤ max := by
  have hk' := hk
  simp only [rangeKeys, List.mem_filter, inRange] at hk'
  obtain ⟨_, hr⟩ := hk'
  cases hd : bytesToUint64 k with
  | none => simp [hd] at hr
  | some n =>
    obtain ⟨hn, hlt⟩ := uint64ToBytes_of_bytesToUint64 hd
    subst hn
    exact ⟨n, hlt, rfl, (mem_rangeKeys_index hmin hlt).1 hk⟩

/-! ## Log operations keep index keys only -/

theorem logsOnly_applyWrite_set {s : DB} (hs : logsOnly s) {k : Key} (hk : k.length = 8)
    (v : Val) : logsOnly (applyWrite s (.set k v)) := by
  intro p hp
  simp only [applyWrite, List.mem_cons, List.mem_filter] at hp
  rcases hp with rfl | hp
  · exact hk
  · exact hs p hp.1

theorem txnCommit_cases (f : Faults) (s : DB) (pending : List Write) :
    (txnCommit f s pending).2 = s ∨
      (txnCommit f s pending).2 = pending.foldl applyWrite s := by
  unfold txnCommit
  cases pending with
  | nil => left; rfl
  | cons w ws =>
    cases f.commit (w :: ws) with
    | none => right; rfl
    | some e => left; rfl

theorem commit_set_cases (f : Faults) (s : DB) (k : Key) (v : Val) :
    (txnCommit f s [.set k v]).2 = s ∨
      (txnCommit f s [.set k v]).2 = applyWrite s (.set k v) := by
  unfold txnCommit
  cases f.commit [.set k v] with
  | none => right; rfl
  | some e => left; rfl

theorem Set_cases (f : Faults) (s : DB) (k : Key) (v : Val) :
    (Set f s k v).2 = s ∨
      ((Set f s k v).1 = none ∧ (Set f s k v).2 = applyWrite s (.set k v)) := by
  unfold Set txnSet
  cases hset : f.set k v with
  | some e => left; simp [txnCommit]
  | none =>
    simp only [List.nil_append]
    unfold txnCommit
    cases f.commit [.set k v] with
    | none => right; exact ⟨rfl, rfl⟩
    | some e => left; rfl

theorem StoreLog_cases (f : Faults) (c : Codec) (s : DB) (log : Log) :
    (StoreLog f c s log).2 = s ∨
      ∃ buf, c.gobEncode log = .ok buf ∧ (StoreLog f c s log).1 = none ∧
        (StoreLog f c s log).2 = applyWrite s (.set (uint64ToBytes log.Index) buf) := by
  unfold StoreLog
  cases henc : c.gobEncode log with
  | error e => left; rfl
  | ok buf =>
    simp only [txnSet]
    cases hset : f.set (uint64ToBytes log.Index) buf with
    | some e => left; simp [txnCommit]
    | none =>
      simp only [List.nil_append]
      unfold txnCommit
      cases f.commit [.set (uint64ToBytes log.Index) buf] with
      | none => right; exact ⟨buf, rfl, rfl, rfl⟩
      | some e => left; rfl

theorem logsOnly_StoreLog (f : Faults) (c : Codec) {s : DB} (hs : logsOnly s) (log : Log) :
    logsOnly (StoreLog f c s log).2 := by
  rcases StoreLog_cases f c s log with h | ⟨buf, _, _, h⟩
  · rw [h]; exact hs
  · rw [h]; exact logsOnly_applyWrite_set hs (uint64ToBytes_length _) _

theorem logsOnly_StoreLogs (f : Faults) (c : Codec) (logs : List Log) :
    ∀ {s : DB}, logsOnly s → logsOnly (StoreLogs f c s logs).2 := by
  induction logs with
  | nil => intro s hs; exact hs
  | cons log logs ih =>
    intro s hs
    unfold StoreLogs
    cases henc : c.gobEncode log with
    | error e => exact hs
    | ok buf =>
      simp only [txnSet]
      cases hset : f.set (uint64ToBytes log.Index) buf with
      | some e => exact hs
      | none =>
        simp only [List.nil_append]
        apply ih
        rcases commit_set_cases f s (uint64ToBytes log.Index) buf with h | h
        · rw [h]; exact hs
        · rw [h]; exact logsOnly_applyWrite_set hs (uint64ToBytes_length _) _

theorem logsOnly_DeleteRange (f : Faults) {s : DB} (hs : logsOnly s) (min max : Nat) :
    ∃ r, DeleteRange f s min max = some r ∧ logsOnly r.2 := by
  unfold DeleteRange
  rcases deleteLoop_cases f max (seekKeys s (uint64ToBytes min)) [] (seekKeys_length hs _)
    with ⟨e, he⟩ | ⟨ks, hks⟩
  · rw [he]; exact ⟨_, rfl, hs⟩
  · rw [hks]
    refine ⟨_, rfl, ?_⟩
    simp only [List.nil_append]
    unfold txnCommit
    split
    · exact hs
    · cases f.commit _ with
      | some e => exact hs
      | none =>
        intro p hp
        exact hs p (mem_of_mem_foldl_delete ks s p hp)

theorem logsOnly_runLogOps (c : Codec) (steps : List (Faults × LogOp)) :
    ∀ {s : DB}, logsOnly s → ∃ s', runLogOps c s steps = some s' ∧ logsOnly s' := by
  induction steps with
  | nil => intro s hs; exact ⟨s, rfl, hs⟩
  | cons step steps ih =>
    intro s hs
    obtain ⟨f, op⟩ := step
    cases op with
    | StoreLog log =>
      simp only [runLogOps, runLogOp]
      exact ih (logsOnly_StoreLog f c hs log)
    | StoreLogs logs =>
      simp only [runLogOps, runLogOp]
      exact ih (logsOnly_StoreLogs f c logs hs)
    | DeleteRange min max =>
      obtain ⟨r, hr, hlog⟩ := logsOnly_DeleteRange f hs min max
      simp only [runLogOps, runLogOp, hr, Option.map_some']
      exact ih hlog

/-! ## The first and the last key -/

theorem sortedKeys_eq_nil {s : DB} (h : sortedKeys s = []) (k : Key) : DB.get s k = none := by
  by_contra hne
  have := (mem_sortedKeys s k).2 hne
  rw [h] at this
  simp at this

theorem sortedKeys_head {s : DB} {key : Key} {rest : List Key}
    (h : sortedKeys s = key :: rest) :
    DB.get s key ≠ none ∧ ∀ k, DB.get s k ≠ none → keyLe key k = true := by
  have hsorted := sortedKeys_sorted s
  rw [h, List.pairwise_cons] at hsorted
  refine ⟨(mem_sortedKeys s key).1 (by rw [h]; exact List.mem_cons_self _ _), ?_⟩
  intro k hk
  have hmem := (mem_sortedKeys s k).2 hk
  rw [h, List.mem_cons] at hmem
  rcases hmem with rfl | hmem
  · exact keyLe_refl _
  · exact hsorted.1 k hmem

theorem sortedKeys_last {s : DB} {key : Key} {rest : List Key}
    (h : (sortedKeys s).reverse = key :: rest) :
    DB.get s key ≠ none ∧ ∀ k, DB.get s k ≠ none → keyLe k key = true := by
  have hsorted := sortedKeys_sorted s
  rw [← List.pairwise_reverse, h, List.pairwise_cons] at hsorted
  have hmem_iff : ∀ k, k ∈ key :: rest ↔ DB.get s k ≠ none := by
    intro k; rw [← h, List.mem_reverse, mem_sortedKeys]
  refine ⟨(hmem_iff key).1 (List.mem_cons_self _ _), ?_⟩
  intro k hk
  have hmem := (hmem_iff k).2 hk
  rw [List.mem_cons] at hmem
  rcases hmem with rfl | hmem
  · exact keyLe_refl _
  · exact hsorted.1 k hmem

theorem FirstIndex_logsOnly {s : DB} (hs : logsOnly s) :
    ∃ lo, FirstIndex s = some (lo, none) ∧
      ((∀ i, i < 18446744073709551616 → ¬ present s i) → lo = 0) ∧
      ((∃ i, i < 18446744073709551616 ∧ present s i) →
        lo < 18446744073709551616 ∧ present s lo ∧
        ∀ i, i < 18446744073709551616 → present s i → lo ≤ i) := by
  unfold FirstIndex firstIndex iterKeys
  simp only [Bool.false_eq_true, if_false]
  cases hk : sortedKeys s with
  | nil =>
    refine ⟨0, rfl, fun _ => rfl, ?_⟩
    rintro ⟨i, _, hi⟩
    exact absurd (sortedKeys_eq_nil hk _) hi
  | cons key rest =>
    obtain ⟨hkey, hmin⟩ := sortedKeys_head hk
    obtain ⟨lo, hlo⟩ := bytesToUint64_isSome_of_length (length_of_get hs hkey)
    obtain ⟨henc, hlt⟩ := uint64ToBytes_of_bytesToUint64 hlo
    have hpres : present s lo := by unfold present; rw [henc]; exact hkey
    refine ⟨lo, by simp [hlo], ?_, ?_⟩
    · intro hnone; exact absurd hpres (hnone lo hlt)
    · intro _
      refine ⟨hlt, hpres, ?_⟩
      intro i hi hp
      have := hmin _ hp
      rw [← henc] at this
      exact (keyLe_uint64ToBytes hlt hi).1 this

theorem LastIndex_logsOnly {s : DB} (hs : logsOnly s) :
    ∃ hi, LastIndex s = some (hi, none) ∧
      ((∀ i, i < 18446744073709551616 → ¬ present s i) → hi = 0) ∧
      ((∃ i, i < 18446744073709551616 ∧ present s i) →
        hi < 18446744073709551616 ∧ present s hi ∧
        ∀ i, i < 18446744073709551616 → present s i → i ≤ hi) := by
  unfold LastIndex firstIndex iterKeys
  simp only [if_true]
  cases hk : (sortedKeys s).reverse with
  | nil =>
    refine ⟨0, rfl, fun _ => rfl, ?_⟩
    rintro ⟨i, _, hi⟩
    rw [List.reverse_eq_nil_iff] at hk
    exact absurd (sortedKeys_eq_nil hk _) hi
  | cons key rest =>
    obtain ⟨hkey, hmax⟩ := sortedKeys_last hk
    obtain ⟨n, hn⟩ := bytesToUint64_isSome_of_length (length_of_get hs hkey)
    obtain ⟨henc, hlt⟩ := uint64ToBytes_of_bytesToUint64 hn
    have hpres : present s n := by unfold present; rw [henc]; exact hkey
    refine ⟨n, by simp [hn], ?_, ?_⟩
    · intro hnone; exact absurd hpres (hnone n hlt)
    · intro _
      refine ⟨hlt, hpres, ?_⟩
      intro i hi hp
      have := hmax _ hp
      rw [← henc] at this
      exact (keyLe_uint64ToBytes hi hlt).1 this

/-! ## Reading after a write -/

theorem GetLog_of_get {g : Faults} {c : Codec} {s : DB} {i : Nat} {v : Val}
    (hget : g.get (uint64ToBytes i) = none) (hval : g.value (uint64ToBytes i) = none)
    (hs : DB.get s (uint64ToBytes i) = some v) (hv : v ≠ []) :
    GetLog g c s i =
      match c.gobDecode v with
      | .error e => .error (.gob e)
      | .ok log => .ok log := by
  simp [GetLog, txnGet, itemValue, hget, hval, hs, hv]

theorem GetLog_of_absent {g : Faults} {c : Codec} {s : DB} {i : Nat}
    (hget : g.get (uint64ToBytes i) = none) (hs : DB.get s (uint64ToBytes i) = none) :
    GetLog g c s i = .error .ErrLogNotFound := by
  simp [GetLog, txnGet, hget, hs]

/-! ## Reads depend on the value of one key -/

theorem GetLog_congr (g : Faults) (c : Codec) {s s' : DB} {i : Nat}
    (h : DB.get s' (uint64ToBytes i) = DB.get s (uint64ToBytes i)) :
    GetLog g c s' i = GetLog g c s i := by
  simp only [GetLog, txnGet, h]

theorem Get_congr (g : Faults) {s s' : DB} {k : Key} (h : DB.get s' k = DB.get s k) :
    Get g s' k = Get g s k := by
  simp only [Get, txnGet, h]

theorem GetUint64_congr (g : Faults) {s s' : DB} {k : Key} (h : DB.get s' k = DB.get s k) :
    GetUint64 g s' k = GetUint64 g s k := by
  simp only [GetUint64, Get_congr g h]

theorem sortedKeys_of_least {s : DB} {m : Key} (hm : DB.get s m ≠ none)
    (hle : ∀ x, DB.get s x ≠ none → keyLe m x = true) :
    ∃ rest, sortedKeys s = m :: rest := by
  cases hk : sortedKeys s with
  | nil => exact absurd (sortedKeys_eq_nil hk m) hm
  | cons key rest =>
    obtain ⟨hkey, hmin⟩ := sortedKeys_head hk
    exact ⟨rest, by rw [keyLe_antisymm (hmin m hm) (hle key hkey)]⟩

theorem sortedKeys_of_greatest {s : DB} {m : Key} (hm : DB.get s m ≠ none)
    (hle : ∀ x, DB.get s x ≠ none → keyLe x m = true) :
    ∃ rest, (sortedKeys s).reverse = m :: rest := by
  cases hk : (sortedKeys s).reverse with
  | nil =>
    rw [List.reverse_eq_nil_iff] at hk
    exact absurd (sortedKeys_eq_nil hk m) hm
  | cons key rest =>
    obtain ⟨hkey, hmax⟩ := sortedKeys_last hk
    exact ⟨rest, by rw [keyLe_antisymm (hle key hkey) (hmax m hm)]⟩

theorem FirstIndex_applyWrite_set {s : DB} {k k0 : Key} (v : Val)
    (h0 : DB.get s k0 ≠ none) (hle : keyLe k0 k = true) :
    FirstIndex (applyWrite s (.set k v)) = FirstIndex s := by
  cases hk : sortedKeys s with
  | nil => exact absurd (sortedKeys_eq_nil hk k0) h0
  | cons m rest =>
    obtain ⟨hm, hmin⟩ := sortedKeys_head hk
    have hm' : DB.get (applyWrite s (.set k v)) m ≠ none := by
      rw [get_applyWrite_set]
      by_cases h : k = m
      · simp [h]
      · simpa [h] using hm
    have hmin' : ∀ x, DB.get (applyWrite s (.set k v)) x ≠ none → keyLe m x = true := by
      intro x hx
      rw [get_applyWrite_set] at hx
      by_cases h : k = x
      · subst h; exact keyLe_trans (hmin k0 h0) hle
      · simp only [h, if_false] at hx; exact hmin x hx
    obtain ⟨rest', hk'⟩ := sortedKeys_of_least hm' hmin'
    simp only [FirstIndex, firstIndex, iterKeys, Bool.false_eq_true, if_false, hk, hk']

theorem LastIndex_applyWrite_set {s : DB} {k k1 : Key} (v : Val)
    (h1 : DB.get s k1 ≠ none) (hle : keyLe k k1 = true) :
    LastIndex (applyWrite s (.set k v)) = LastIndex s := by
  cases hk : (sortedKeys s).reverse with
  | nil =>
    rw [List.reverse_eq_nil_iff] at hk
    exact absurd (sortedKeys_eq_nil hk k1) h1
  | cons m rest =>
    obtain ⟨hm, hmax⟩ := sortedKeys_last hk
    have hm' : DB.get (applyWrite s (.set k v)) m ≠ none := by
      rw [get_applyWrite_set]
      by_cases h : k = m
      · simp [h]
      · simpa [h] using hm
    have hmax' : ∀ x, DB.get (applyWrite s (.set k v)) x ≠ none → keyLe x m = true := by
      intro x hx
      rw [get_applyWrite_set] at hx
      by_cases h : k = x
      · subst h; exact keyLe_trans hle (hmax k1 h1)
      · simp only [h, if_false] at hx; exact hmax x hx
    obtain ⟨rest', hk'⟩ := sortedKeys_of_greatest hm' hmax'
    simp only [LastIndex, firstIndex, iterKeys, if_true, hk, hk']

/-! ## What the log writes change -/

theorem get_StoreLog {f : Faults} {c : Codec} {s : DB} {e : Log} {k : Key}
    (hne : uint64ToBytes e.Index ≠ k) :
    DB.get (StoreLog f c s e).2 k = DB.get s k := by
  rcases StoreLog_cases f c s e with h | ⟨buf, _, _, h⟩
  · rw [h]
  · rw [h, get_applyWrite_set]; simp [hne]

theorem get_StoreLogs {f : Faults} {c : Codec} {k : Key} (es : List Log) :
    ∀ {s : DB}, (∀ e ∈ es, uint64ToBytes e.Index ≠ k) →
      DB.get (StoreLogs f c s es).2 k = DB.get s k := by
  induction es with
  | nil => intro s _; rfl
  | cons e es ih =>
    intro s hne
    unfold StoreLogs
    cases henc : c.gobEncode e with
    | error err => rfl
    | ok buf =>
      simp only [txnSet]
      cases hset : f.set (uint64ToBytes e.Index) buf with
      | some err => rfl
      | none =>
        simp only [List.nil_append]
        rw [ih (fun e' he' => hne e' (List.mem_cons_of_mem _ he'))]
        rcases commit_set_cases f s (uint64ToBytes e.Index) buf with h | h
        · rw [h]
        · rw [h, get_applyWrite_set]; simp [hne e (List.mem_cons_self _ _)]

theorem get_DeleteRange {f : Faults} {s : DB} {min max : Nat} {r : Option Error × DB}
    {k : Key} (hmin : min < 18446744073709551616)
    (hsmall : (seekKeys s (uint64ToBytes min)).length ≤ prefetchSize)
    (hne : ∀ i, min ≤ i → i ≤ max → uint64ToBytes i ≠ k)
    (h : DeleteRange f s min max = some r) : DB.get r.2 k = DB.get s k := by
  unfold DeleteRange at h
  cases hloop : deleteLoop f max (seekKeys s (uint64ToBytes min)) [] with
  | none => simp [hloop] at h
  | some res =>
    cases res with
    | error e =>
      simp only [hloop, Option.some.injEq] at h
      rw [← h]
    | ok result =>
      simp only [hloop, Option.some.injEq] at h
      obtain ⟨ks, hres, hks⟩ := deleteLoop_keys f max _ _ _ hsmall hloop
      simp only [List.nil_append] at hres
      have hnot : k ∉ ks := by
        intro hk
        obtain ⟨hseek, hr⟩ := hks k hk
        have hge := ((mem_seekKeys s _ k).1 hseek).2
        simp only [inRange] at hr
        cases hd : bytesToUint64 k with
        | none => simp [hd] at hr
        | some n =>
          simp only [hd, decide_eq_true_eq] at hr
          obtain ⟨henc, hlt⟩ := uint64ToBytes_of_bytesToUint64 hd
          rw [← henc, keyLe_uint64ToBytes hmin hlt] at hge
          exact hne n hge hr henc
      rw [← h]
      subst hres
      rcases txnCommit_cases f s (ks.map Write.delete) with h2 | h2
      · simp only [h2]
      · simp only [h2, get_foldl_delete, hnot, if_false]

/-! ## StoreLogs stops at the first failure -/

theorem StoreLogs_append (f : Faults) (c : Codec) (pre : List Log) :
    ∀ (s : DB) (rest : List Log),
      (∀ e ∈ pre, ∃ buf, c.gobEncode e = .ok buf ∧ f.set (uint64ToBytes e.Index) buf = none) →
      StoreLogs f c s (pre ++ rest) = StoreLogs f c (StoreLogs f c s pre).2 rest := by
  induction pre with
  | nil => intro s rest _; rfl
  | cons e pre ih =>
    intro s rest hpre
    obtain ⟨buf, henc, hset⟩ := hpre e (List.mem_cons_self _ _)
    have hpre' := fun e' he' => hpre e' (List.mem_cons_of_mem _ he')
    simp only [List.cons_append, StoreLogs, henc, txnSet, hset, List.nil_append]
    exact ih _ rest hpre'

theorem StoreLogs_write_failure (f : Faults) (c : Codec) (s : DB) (pre post : List Log)
    (e : Log) (buf : Val) (err : BadgerErr)
    (hpre : ∀ e' ∈ pre, ∃ b, c.gobEncode e' = .ok b ∧ f.set (uint64ToBytes e'.Index) b = none)
    (henc : c.gobEncode e = .ok buf) (hset : f.set (uint64ToBytes e.Index) buf = some err) :
    StoreLogs f c s (pre ++ e :: post) = (none, (StoreLogs f c s pre).2) := by
  rw [StoreLogs_append f c pre s _ hpre]
  simp only [StoreLogs, henc, txnSet, hset]

theorem StoreLogs_encode_failure (f : Faults) (c : Codec) (s : DB) (pre post : List Log)
    (e : Log) (err : Nat)
    (hpre : ∀ e' ∈ pre, ∃ b, c.gobEncode e' = .ok b ∧ f.set (uint64ToBytes e'.Index) b = none)
    (henc : c.gobEncode e = .error err) :
    StoreLogs f c s (pre ++ e :: post) = (some (.gob err), (StoreLogs f c s pre).2) := by
  rw [StoreLogs_append f c pre s _ hpre]
  simp only [StoreLogs, henc]

/-! ## The results of Get -/

theorem Get_lookup_failure {f : Faults} {s : DB} {k : Key} {e : BadgerErr}
    (hget : f.get k = some e) (hne : e ≠ .ErrKeyNotFound) :
    Get f s k = (none, some (.badger e)) := by
  simp [Get, txnGet, hget, hne]

theorem Get_of_working_engine {f : Faults} {s : DB} {k : Key}
    (hget : f.get k = none) (hval : f.value k = none) :
    Get f s k =
      match DB.get s k with
      | none => (none, some .ErrKeyNotFound)
      | some v => if v = [] then (none, some .ErrKeyNotFound) else (some v, none) := by
  unfold Get txnGet itemValue
  rw [hget, hval]
  cases DB.get s k with
  | none => rfl
  | some v =>
    by_cases hv : v = []
    · simp [hv]
    · simp [hv]

theorem Get_value_failure {f : Faults} {s : DB} {k : Key} {v : Val} {e : BadgerErr}
    (hget : f.get k = none) (hs : DB.get s k = some v) (hval : f.value k = some e) :
    Get f s k = (none, some .ErrKeyNotFound) := by
  simp [Get, txnGet, itemValue, hget, hs, hval]

theorem DeleteRange_error_unchanged {f : Faults} {s : DB} {min max : Nat} {e : Error}
    {r : DB} (h : DeleteRange f s min max = some (some e, r)) : r = s := by
  unfold DeleteRange at h
  cases hloop : deleteLoop f max (seekKeys s (uint64ToBytes min)) [] with
  | none => simp [hloop] at h
  | some res =>
    cases res with
    | error e' =>
      simp only [hloop, Option.some.injEq, Prod.mk.injEq] at h
      exact h.2.symm
    | ok result =>
      simp only [hloop, Option.some.injEq, Prod.mk.injEq] at h
      obtain ⟨h1, h2⟩ := h
      unfold txnCommit at h1 h2
      cases result with
      | nil => simp at h1
      | cons w ws =>
        cases hc : f.commit (w :: ws) with
        | some e' => simp only [hc] at h2; exact h2.symm
        | none => simp [hc] at h1

/-! ## Reads after a committed write -/

/-- When the codec decodes what it encodes (a non-empty record), then after a
`StoreLog(e)` that returned no error and whose transaction committed,
`GetLog(e.Index)` succeeds and yields `e`, whatever the database held before. -/
theorem GetLog_after_committed_StoreLog (f g : Faults) (c : Codec) (s : DB) (e : Log)
    (hcodec : ∀ buf, c.gobEncode e = .ok buf → buf ≠ [] ∧ c.gobDecode buf = .ok e)
    (hok : (StoreLog f c s e).1 = none) (hcommit : ∀ w, f.commit w = none)
    (hget : g.get (uint64ToBytes e.Index) = none)
    (hval : g.value (uint64ToBytes e.Index) = none) :
    GetLog g c (StoreLog f c s e).2 e.Index = .ok e := by
  unfold StoreLog at hok ⊢
  cases henc : c.gobEncode e with
  | error err => simp [henc] at hok
  | ok buf =>
    obtain ⟨hne, hdec⟩ := hcodec buf henc
    simp only [henc, txnSet] at hok ⊢
    cases hset : f.set (uint64ToBytes e.Index) buf with
    | some err => simp [hset] at hok
    | none =>
      simp only [List.nil_append, txnCommit, hcommit, List.foldl_cons, List.foldl_nil]
      rw [GetLog_of_get hget hval (v := buf) (by rw [get_applyWrite_set]; simp) hne, hdec]

/-- After a `SetUint64(k, n)` that returned no error and whose transaction
committed, `GetUint64(k)` returns `n` with no error, for every key and every
64-bit value; and whenever `Get(k)` fails, `GetUint64(k)` returns 0 together
with the error of `Get(k)`. -/
theorem GetUint64_after_committed_SetUint64 (f g : Faults) (s : DB) (k : Key) (n : Nat)
    (hn : n < 18446744073709551616)
    (hok : (SetUint64 f s k n).1 = none) (hcommit : ∀ w, f.commit w = none)
    (hget : g.get k = none) (hval : g.value k = none) :
    GetUint64 g (SetUint64 f s k n).2 k = some (n, none) ∧
    (∀ (g' : Faults) (s' : DB) (k' : Key) (err : Error),
      (Get g' s' k').2 = some err → GetUint64 g' s' k' = some (0, some err)) := by
  constructor
  · unfold SetUint64 Set txnSet at hok ⊢
    cases hset : f.set k (uint64ToBytes n) with
    | some e => simp [hset] at hok
    | none =>
      simp only [List.nil_append, txnCommit, hcommit, List.foldl_cons, List.foldl_nil]
      have hg : DB.get (applyWrite s (.set k (uint64ToBytes n))) k = some (uint64ToBytes n) := by
        rw [get_applyWrite_set]; simp
      have hne : uint64ToBytes n ≠ [] := by simp [uint64ToBytes]
      simp [GetUint64, Get_of_working_engine hget hval, hg, hne, bytesToUint64_of_lt hn]
  · intro g' s' k' err herr
    unfold GetUint64
    cases hG : Get g' s' k' with
    | mk val e =>
      rw [hG] at herr
      simp only at herr
      subst herr
      rfl

/-! ## The database after StoreLogs of 101 entries -/

theorem sortedKeys_eq_of_sorted {s : DB} {L : List Key}
    (hL : L.Pairwise (fun a b => keyLt a b = true))
    (hmem : ∀ k, k ∈ L ↔ DB.get s k ≠ none) : sortedKeys s = L := by
  haveI : IsAntisymm Key (fun a b => keyLe a b = true) := ⟨fun _ _ h1 h2 => keyLe_antisymm h1 h2⟩
  have hle : L.Pairwise (fun a b => keyLe a b = true) := by
    refine hL.imp ?_
    intro a b hab
    cases hba : keyLt b a with
    | false => simp [keyLe, hba]
    | true => have := keyLt_trans hab hba; simp [keyLt_irrefl] at this
  have hnd : L.Nodup := by
    refine hL.imp ?_
    intro a b hab heq
    subst heq
    simp [keyLt_irrefl] at hab
  have hnd' : (sortedKeys s).Nodup := by
    unfold sortedKeys
    exact (List.perm_insertionSort _ _).nodup_iff.2 (List.nodup_dedup _)
  have hperm : (sortedKeys s).Perm L :=
    (List.perm_ext_iff_of_nodup hnd' hnd).2 (fun k => by rw [mem_sortedKeys, hmem])
  exact List.eq_of_perm_of_sorted hperm (sortedKeys_sorted s) hle

theorem get_StoreLogs_ne_none {f : Faults} {c : Codec} (hset : ∀ k v, f.set k v = none)
    (hcommit : ∀ w, f.commit w = none) (logs : List Log)
    (henc : ∀ l ∈ logs, ∃ buf, c.gobEncode l = .ok buf) :
    ∀ (s : DB) (k : Key), DB.get (StoreLogs f c s logs).2 k ≠ none ↔
      DB.get s k ≠ none ∨ k ∈ logs.map (fun l => uint64ToBytes l.Index) := by
  induction logs with
  | nil => intro s k; simp [StoreLogs]
  | cons l logs ih =>
    intro s k
    obtain ⟨buf, hbuf⟩ := henc l (List.mem_cons_self _ _)
    have henc' := fun l' hl' => henc l' (List.mem_cons_of_mem _ hl')
    simp only [StoreLogs, hbuf, txnSet, hset, List.nil_append, txnCommit, hcommit,
      List.foldl_cons, List.foldl_nil, ih henc', get_applyWrite_set, List.map_cons,
      List.mem_cons]
    by_cases hk : uint64ToBytes l.Index = k
    · simp [hk]
    · simp [hk, Ne.symm hk]

theorem get_StoreLogs_head {f : Faults} {c : Codec} {s : DB} {l : Log} {logs : List Log}
    {buf : Val} (hset : f.set (uint64ToBytes l.Index) buf = none)
    (hcommit : ∀ w, f.commit w = none) (henc : c.gobEncode l = .ok buf)
    (hne : ∀ e ∈ logs, uint64ToBytes e.Index ≠ uint64ToBytes l.Index) :
    DB.get (StoreLogs f c s (l :: logs)).2 (uint64ToBytes l.Index) = some buf := by
  simp only [StoreLogs, henc, txnSet, hset, List.nil_append, txnCommit, hcommit,
    List.foldl_cons, List.foldl_nil]
  rw [get_StoreLogs logs hne, get_applyWrite_set]
  simp

theorem pairwise_of_ascending : ∀ (L : List Key), ascending L = true →
    L.Pairwise (fun a b => keyLt a b = true) := by
  intro L
  induction L with
  | nil => intro _; exact List.Pairwise.nil
  | cons a rest ih =>
    intro h
    cases rest with
    | nil => exact List.pairwise_singleton _ _
    | cons b rest' =>
      simp only [ascending, Bool.and_eq_true] at h
      have hrest := ih h.2
      refine List.Pairwise.cons ?_ hrest
      intro x hx
      rw [List.mem_cons] at hx
      rcases hx with rfl | hx
      · exact h.1
      · exact keyLt_trans h.1 ((List.pairwise_cons.1 hrest).1 x hx)

theorem keys101_sorted : keys101.Pairwise (fun a b => keyLt a b = true) :=
  pairwise_of_ascending keys101 (by decide!)

theorem sortedKeys_logs101 : sortedKeys (StoreLogs noFaults demoCodec [] logs101).2 = keys101 := by
  apply sortedKeys_eq_of_sorted keys101_sorted
  intro k
  rw [get_StoreLogs_ne_none (fun _ _ => rfl) (fun _ => rfl) logs101 (fun l _ => ⟨_, rfl⟩)]
  simp [DB.get, keys101, logs101, List.map_map, Function.comp_def]

theorem mem_keys101 : uint64ToBytes 1 ∈ keys101 ∧ uint64ToBytes 101 ∈ keys101 ∧
    keys101.filter (fun key => keyLe (uint64ToBytes 1) key) = keys101 := by
  decide!

theorem deleteLoop_keys101 : deleteLoop noFaults 1 keys101 []
      = some (.ok [.delete (uint64ToBytes 101)]) := by
  have hloop : (deleteLoop noFaults 1 keys101 []).map Except.toOption
      = some (some [.delete (uint64ToBytes 101)]) := by
    decide!
  cases h : deleteLoop noFaults 1 keys101 [] with
  | none => rw [h] at hloop; exact absurd hloop (by simp)
  | some res =>
    cases res with
    | error e => rw [h] at hloop; exact absurd hloop (by simp [Except.toOption])
    | ok pending =>
      simp only [h, Option.map_some', Except.toOption, Option.some.injEq] at hloop
      rw [hloop]

theorem DeleteRange_of_keys101 (s : DB) (hk : sortedKeys s = keys101) :
    DeleteRange noFaults s 1 1 = some (none, applyWrite s (.delete (uint64ToBytes 101))) := by
  unfold DeleteRange seekKeys
  rw [hk, mem_keys101.2.2, deleteLoop_keys101]
  simp only [txnCommit, noFaults, List.foldl_cons, List.foldl_nil, Option.map_none']

theorem after_DeleteRange_of_keys101 (s : DB) (hk : sortedKeys s = keys101) :
    present s 1 ∧ present s 101 ∧
    ∃ s', DeleteRange noFaults s 1 1 = some (none, s') ∧
      DB.get s' (uint64ToBytes 1) = DB.get s (uint64ToBytes 1) ∧ ¬ present s' 101 := by
  have h1 : present s 1 := by
    unfold present; rw [← mem_sortedKeys, hk]; exact mem_keys101.1
  have h101 : present s 101 := by
    unfold present; rw [← mem_sortedKeys, hk]; exact mem_keys101.2.1
  refine ⟨h1, h101, _, DeleteRange_of_keys101 s hk, ?_, ?_⟩
  · rw [get_applyWrite_delete]
    have : uint64ToBytes 101 ≠ uint64ToBytes 1 := by decide
    simp only [this, if_false]
  · unfold present
    rw [get_applyWrite_delete]
    simp

theorem logs101_cons :
    logs101 = ⟨1, 1, 0, []⟩ :: (List.range 100).map (fun i => ⟨i + 2, 1, 0, []⟩) ∧
    ∀ e ∈ (List.range 100).map (fun i => (⟨i + 2, 1, 0, []⟩ : Log)),
      uint64ToBytes e.Index ≠ uint64ToBytes 1 := by
  decide!

theorem get_logs101 :
    DB.get (StoreLogs noFaults demoCodec [] logs101).2 (uint64ToBytes 1) = some [1, 1, 1, 0] := by
  rw [logs101_cons.1]
  exact get_StoreLogs_head (l := ⟨1, 1, 0, []⟩) rfl (fun _ => rfl) rfl logs101_cons.2

theorem GetLog_after_DeleteRange_of_keys101 (logs : List Log)
    (hk : sortedKeys (StoreLogs noFaults demoCodec [] logs).2 = keys101)
    (hg : DB.get (StoreLogs noFaults demoCodec [] logs).2 (uint64ToBytes 1)
      = some [1, 1, 1, 0]) :
    ∃ s, runLogOps demoCodec [] [(noFaults, .StoreLogs logs), (noFaults, .DeleteRange 1 1)]
        = some s ∧
      GetLog noFaults demoCodec s 1 = .ok ⟨1, 1, 0, []⟩ := by
  obtain ⟨_, _, s', hdel, hget, _⟩ := after_DeleteRange_of_keys101 _ hk
  refine ⟨s', ?_, ?_⟩
  · simp only [runLogOps, runLogOp, hdel, Option.map_some']
  · rw [GetLog_of_get (v := [1, 1, 1, 0]) rfl rfl (by rw [hget, hg]) (by simp)]
    rfl

theorem present_after_DeleteRange_of_keys101 (s : DB) (hk : sortedKeys s = keys101) :
    present s 1 ∧ present s 101 ∧
    ∃ s', DeleteRange noFaults s 1 1 = some (none, s') ∧ present s' 1 ∧ ¬ present s' 101 := by
  obtain ⟨h1, h101, s', hdel, hget, hnot⟩ := after_DeleteRange_of_keys101 s hk
  refine ⟨h1, h101, s', hdel, ?_, hnot⟩
  unfold present at h1 ⊢
  rw [hget]
  exact h1

theorem logsOnly_empty : logsOnly ([] : DB) := by
  intro p hp
  simp at hp

/-! ## Claims -/

/-- C1, the code at the failing input: with the indices 1 to 101 stored, the
database holds only log entries and `DeleteRange(1, 1)` returns no error, but
the entry of index 1 is still present afterwards and the entry of index 101
is not. -/
theorem C1_DeleteRange_keeps_index_1_and_deletes_index_101 :
    logsOnly (StoreLogs noFaults demoCodec [] logs101).2 ∧
    present (StoreLogs noFaults demoCodec [] logs101).2 1 ∧
    present (StoreLogs noFaults demoCodec [] logs101).2 101 ∧
    ∃ s', DeleteRange noFaults (StoreLogs noFaults demoCodec [] logs101).2 1 1
        = some (none, s') ∧
      present s' 1 ∧ ¬ present s' 101 :=
  ⟨logsOnly_StoreLogs noFaults demoCodec logs101 logsOnly_empty,
    present_after_DeleteRange_of_keys101 _ sortedKeys_logs101⟩

/-- C2: after every sequence of `StoreLog`, `StoreLogs` and `DeleteRange`
calls on an initially empty database, whatever the engine failures during
them, `FirstIndex()` returns the smallest and `LastIndex()` the largest index
present, with no error; both return 0 when no index is present. -/
theorem C2_FirstIndex_LastIndex_are_min_and_max (c : Codec)
    (steps : List (Faults × LogOp)) :
    ∃ s lo hi, runLogOps c [] steps = some s ∧
      FirstIndex s = some (lo, none) ∧ LastIndex s = some (hi, none) ∧
      ((∀ i, i < 18446744073709551616 → ¬ present s i) → lo = 0 ∧ hi = 0) ∧
      ((∃ i, i < 18446744073709551616 ∧ present s i) →
        lo < 18446744073709551616 ∧ present s lo ∧
        hi < 18446744073709551616 ∧ present s hi ∧
        ∀ i, i < 18446744073709551616 → present s i → lo ≤ i ∧ i ≤ hi) := by
  have h0 : logsOnly ([] : DB) := by intro p hp; simp at hp
  obtain ⟨s, hrun, hs⟩ := logsOnly_runLogOps c steps h0
  obtain ⟨lo, hfirst, hlo0, hlo⟩ := FirstIndex_logsOnly hs
  obtain ⟨hi, hlast, hhi0, hhi⟩ := LastIndex_logsOnly hs
  refine ⟨s, lo, hi, hrun, hfirst, hlast, fun h => ⟨hlo0 h, hhi0 h⟩, ?_⟩
  intro hex
  obtain ⟨h1, h2, h3⟩ := hlo hex
  obtain ⟨h4, h5, h6⟩ := hhi hex
  exact ⟨h1, h2, h4, h5, fun i hi hp => ⟨h3 i hi hp, h6 i hi hp⟩⟩

/-- C3, the code at the failing input: when the commit fails, `StoreLog(e)`
returns no error and stores nothing; `GetLog(e.Index)` then fails with
`ErrLogNotFound` on an empty database, and yields the entry stored before when
there is one. -/
theorem C3_StoreLog_returns_nil_when_the_commit_fails :
    StoreLog commitFails demoCodec [] ⟨2, 2, 0, []⟩ = (none, []) ∧
    GetLog noFaults demoCodec (StoreLog commitFails demoCodec [] ⟨2, 2, 0, []⟩).2 2
      = .error .ErrLogNotFound ∧
    (StoreLog commitFails demoCodec (StoreLog noFaults demoCodec [] ⟨2, 1, 0, []⟩).2
      ⟨2, 2, 0, []⟩).1 = none ∧
    GetLog noFaults demoCodec
      (StoreLog commitFails demoCodec (StoreLog noFaults demoCodec [] ⟨2, 1, 0, []⟩).2
        ⟨2, 2, 0, []⟩).2 2 = .ok ⟨2, 1, 0, []⟩ :=
  ⟨by decide, rfl, by decide, rfl⟩

/-- C4, the code at the failing input: after `StoreLogs` of the indices 1 to
101 and `DeleteRange(1, 1)`, which covers the only store of index 1,
`GetLog(1)` succeeds and yields the entry of index 1. -/
theorem C4_GetLog_succeeds_after_a_covering_DeleteRange :
    liveAfter 1 false [.StoreLogs logs101, .DeleteRange 1 1] = false ∧
    ∃ s, runLogOps demoCodec []
        [(noFaults, .StoreLogs logs101), (noFaults, .DeleteRange 1 1)] = some s ∧
      GetLog noFaults demoCodec s 1 = .ok ⟨1, 1, 0, []⟩ :=
  ⟨by decide!, GetLog_after_DeleteRange_of_keys101 logs101 sortedKeys_logs101 get_logs101⟩

/-- C5, refuted as stated: on the empty database `FirstIndex()` and
`LastIndex()` return 0 and `GetLog(5)` fails with `ErrLogNotFound`; after
`Set(k, v)` with the eight-byte key `k` that encodes 5, both scans return 5
and `GetLog(5)` reads `v`, failing in the codec. -/
theorem C5_counterexample :
    FirstIndex [] = some (0, none) ∧ LastIndex [] = some (0, none) ∧
    GetLog noFaults demoCodec [] 5 = .error .ErrLogNotFound ∧
    FirstIndex (Set noFaults [] (uint64ToBytes 5) [9]).2 = some (5, none) ∧
    LastIndex (Set noFaults [] (uint64ToBytes 5) [9]).2 = some (5, none) ∧
    GetLog noFaults demoCodec (Set noFaults [] (uint64ToBytes 5) [9]).2 5 = .error (.gob 0) :=
  ⟨by decide, by decide, rfl, by decide, by decide, rfl⟩

/-- C5, amended: `Set(k, v)`, and so `SetUint64(k, n)`, leaves `GetLog(i)`
unchanged for every index `i` whose key is not `k`, leaves `FirstIndex()`
unchanged when the database holds a key at or before `k`, and leaves
`LastIndex()` unchanged when the database holds a key at or after `k`. -/
theorem C5_Set_leaves_other_log_reads_unchanged (f : Faults) (s : DB) (k : Key) (v : Val) :
    (∀ (g : Faults) (c : Codec) (i : Nat), uint64ToBytes i ≠ k →
      GetLog g c (Set f s k v).2 i = GetLog g c s i) ∧
    ((∃ k0, DB.get s k0 ≠ none ∧ keyLe k0 k = true) →
      FirstIndex (Set f s k v).2 = FirstIndex s) ∧
    ((∃ k1, DB.get s k1 ≠ none ∧ keyLe k k1 = true) →
      LastIndex (Set f s k v).2 = LastIndex s) ∧
    (∀ n, SetUint64 f s k n = Set f s k (uint64ToBytes n)) := by
  refine ⟨?_, ?_, ?_, fun _ => rfl⟩
  · intro g c i hne
    rcases Set_cases f s k v with h | ⟨_, h⟩
    · rw [h]
    · rw [h]
      apply GetLog_congr
      rw [get_applyWrite_set]
      simp [Ne.symm hne]
  · rintro ⟨k0, h0, hle⟩
    rcases Set_cases f s k v with h | ⟨_, h⟩
    · rw [h]
    · rw [h]; exact FirstIndex_applyWrite_set v h0 hle
  · rintro ⟨k1, h1, hle⟩
    rcases Set_cases f s k v with h | ⟨_, h⟩
    · rw [h]
    · rw [h]; exact LastIndex_applyWrite_set v h1 hle

/-- C6, refuted as stated: a value set under the eight-byte key that encodes 5
is read back by `Get`; `DeleteRange(5, 5)` removes it, after which `Get` fails
with `ErrKeyNotFound`, and `StoreLog` of an entry with index 5 overwrites it. -/
theorem C6_counterexample :
    Get noFaults (Set noFaults [] (uint64ToBytes 5) [9]).2 (uint64ToBytes 5)
      = (some [9], none) ∧
    (DeleteRange noFaults (Set noFaults [] (uint64ToBytes 5) [9]).2 5 5).map
        (fun r => Get noFaults r.2 (uint64ToBytes 5))
      = some (none, some .ErrKeyNotFound) ∧
    Get noFaults
        (StoreLog noFaults demoCodec (Set noFaults [] (uint64ToBytes 5) [9]).2
          ⟨5, 1, 0, []⟩).2 (uint64ToBytes 5)
      = (some [1, 5, 1, 0], none) := by
  decide

/-- C6, amended: `StoreLog(e)` and `StoreLogs(es)` leave `Get(k)` and
`GetUint64(k)` unchanged for every key `k` that is not the index key of an
entry stored; `DeleteRange(min, max)`, on a database with at most 100 keys at
or after the key of `min` and where it is defined (every key it visits is eight
bytes wide), leaves them unchanged for every key `k` that is not the index key
of an index in `[min, max]`; it is defined whenever every key of the database
is eight bytes wide. -/
theorem C6_log_writes_leave_other_keys_unchanged (f g : Faults) (c : Codec) (s : DB)
    (k : Key) :
    (∀ e : Log, uint64ToBytes e.Index ≠ k →
      Get g (StoreLog f c s e).2 k = Get g s k ∧
      GetUint64 g (StoreLog f c s e).2 k = GetUint64 g s k) ∧
    (∀ es : List Log, (∀ e ∈ es, uint64ToBytes e.Index ≠ k) →
      Get g (StoreLogs f c s es).2 k = Get g s k ∧
      GetUint64 g (StoreLogs f c s es).2 k = GetUint64 g s k) ∧
    (∀ (min max : Nat) (r : Option Error × DB), min < 18446744073709551616 →
      (seekKeys s (uint64ToBytes min)).length ≤ prefetchSize →
      (∀ i, min ≤ i → i ≤ max → uint64ToBytes i ≠ k) →
      DeleteRange f s min max = some r →
      Get g r.2 k = Get g s k ∧ GetUint64 g r.2 k = GetUint64 g s k) ∧
    (logsOnly s → ∀ min max : Nat, ∃ r, DeleteRange f s min max = some r) := by
  refine ⟨?_, ?_, ?_, ?_⟩
  · intro e hne
    exact ⟨Get_congr g (get_StoreLog hne), GetUint64_congr g (get_StoreLog hne)⟩
  · intro es hne
    exact ⟨Get_congr g (get_StoreLogs es hne), GetUint64_congr g (get_StoreLogs es hne)⟩
  · intro min max r hmin hsmall hne h
    exact ⟨Get_congr g (get_DeleteRange hmin hsmall hne h),
      GetUint64_congr g (get_DeleteRange hmin hsmall hne h)⟩
  · intro hs min max
    obtain ⟨r, hr, _⟩ := logsOnly_DeleteRange f hs min max
    exact ⟨r, hr⟩

/-- C7, the code at the failing input: when the commit fails, `SetUint64(k, 7)`
returns no error and stores nothing; `GetUint64(k)` then returns 0 with
`ErrKeyNotFound` on an empty database, and the value set before when there is
one. -/
theorem C7_SetUint64_returns_nil_when_the_commit_fails :
    SetUint64 commitFails [] [67, 84] 7 = (none, []) ∧
    GetUint64 noFaults (SetUint64 commitFails [] [67, 84] 7).2 [67, 84]
      = some (0, some .ErrKeyNotFound) ∧
    (SetUint64 commitFails (SetUint64 noFaults [] [67, 84] 3).2 [67, 84] 7).1 = none ∧
    GetUint64 noFaults (SetUint64 commitFails (SetUint64 noFaults [] [67, 84] 3).2 [67, 84] 7).2
      [67, 84] = some (3, none) := by
  decide

/-- C8, the code at the failing input: when the engine write of the second of
three entries fails, `StoreLogs` returns no error; the first entry is stored,
the second and the third are not. -/
theorem C8_StoreLogs_returns_nil_when_a_write_fails :
    StoreLogs setFailsAt2 demoCodec [] [⟨1, 1, 0, []⟩, ⟨2, 1, 0, []⟩, ⟨3, 1, 0, []⟩]
      = (none, [(uint64ToBytes 1, [1, 1, 1, 0])]) := by
  decide

/-- C9: on a database holding only log entries, when the deletion of a stored
key with index in `[min, max]` fails, `DeleteRange(min, max)` returns the error
of a failed deletion and the database is exactly as before the call; on every
database, when the loop meets a failing deletion `DeleteRange` returns its
error with the database as before, and a `DeleteRange` that returns an error
leaves the database unchanged. -/
theorem C9_DeleteRange_failure_leaves_the_database_unchanged (f : Faults) (s : DB)
    (min max : Nat) (hs : logsOnly s) (hmin : min < 18446744073709551616)
    (hfail : ∃ i, i < 18446744073709551616 ∧ min ≤ i ∧ i ≤ max ∧ present s i ∧
      f.delete (uint64ToBytes i) ≠ none) :
    (∃ i e, min ≤ i ∧ i ≤ max ∧ present s i ∧ f.delete (uint64ToBytes i) = some e ∧
      DeleteRange f s min max = some (some (.badger e), s)) ∧
    (∀ (s0 : DB) (e : BadgerErr),
      deleteLoop f max (seekKeys s0 (uint64ToBytes min)) [] = some (.error e) →
      DeleteRange f s0 min max = some (some (.badger e), s0)) ∧
    (∀ (s0 r : DB) (err : Error), DeleteRange f s0 min max = some (some err, r) → r = s0) := by
  refine ⟨?_, fun s0 e h => by simp only [DeleteRange, h],
    fun s0 r err h => DeleteRange_error_unchanged h⟩
  obtain ⟨i, hi, h1, h2, hp, hd⟩ := hfail
  have hex : ∃ k ∈ (seekKeys s (uint64ToBytes min)).filter (inRange max), f.delete k ≠ none :=
    ⟨uint64ToBytes i, (mem_rangeKeys_index hmin hi).2 ⟨hp, h1, h2⟩, hd⟩
  obtain ⟨k, e, hk, hke, hloop⟩ :=
    deleteLoop_fault f max _ [] (seekKeys_length hs _) (seekKeys_sorted s _) hex
  obtain ⟨j, _, rfl, hpj, hj1, hj2⟩ := mem_rangeKeys_elim hmin hk
  exact ⟨j, e, hj1, hj2, hpj, hke, by simp only [DeleteRange, hloop]⟩

/-- C9, at an instance: with the indices 1 to 5 stored and an engine whose
deletion of index 3 fails, `DeleteRange(2, 4)`, whose deletion of index 2
succeeded, returns the error and leaves the five entries. -/
theorem C9_witness :
    (∃ i e, 2 ≤ i ∧ i ≤ 4 ∧ present demoLogs i ∧
      deleteFailsAt3.delete (uint64ToBytes i) = some e ∧
      DeleteRange deleteFailsAt3 demoLogs 2 4 = some (some (.badger e), demoLogs)) ∧
    (∀ (s0 : DB) (e : BadgerErr),
      deleteLoop deleteFailsAt3 4 (seekKeys s0 (uint64ToBytes 2)) [] = some (.error e) →
      DeleteRange deleteFailsAt3 s0 2 4 = some (some (.badger e), s0)) ∧
    (∀ (s0 r : DB) (err : Error),
      DeleteRange deleteFailsAt3 s0 2 4 = some (some err, r) → r = s0) :=
  C9_DeleteRange_failure_leaves_the_database_unchanged deleteFailsAt3 demoLogs 2 4
    (by decide) (by decide) ⟨3, by decide, by decide, by decide, by decide, by decide⟩

/-- C10, the code at the failing input: with a non-empty value stored under a
key, an engine failure while reading the item's value makes `Get` return
`ErrKeyNotFound`, not the failure; with a working engine the value is
returned. -/
theorem C10_Get_reports_a_value_failure_as_not_found :
    Get valueFails [([107], [1])] [107] = (none, some .ErrKeyNotFound) ∧
    Get noFaults [([107], [1])] [107] = (some [1], none) := by
  decide

/-- The scenario of the specification: after `StoreLogs` of the indices 1, 2
and 3 the first index is 1 and the last is 3; after `DeleteRange(1, 2)` both
are 3, `GetLog(1)` and `GetLog(2)` fail with `ErrLogNotFound` and `GetLog(3)`
succeeds. -/
theorem scenario_StoreLogs_then_DeleteRange :
    StoreLogs noFaults demoCodec [] [⟨1, 1, 0, []⟩, ⟨2, 1, 0, []⟩, ⟨3, 1, 0, []⟩]
      = (none, [(uint64ToBytes 3, [1, 3, 1, 0]), (uint64ToBytes 2, [1, 2, 1, 0]),
          (uint64ToBytes 1, [1, 1, 1, 0])]) ∧
    FirstIndex [(uint64ToBytes 3, [1, 3, 1, 0]), (uint64ToBytes 2, [1, 2, 1, 0]),
      (uint64ToBytes 1, [1, 1, 1, 0])] = some (1, none) ∧
    LastIndex [(uint64ToBytes 3, [1, 3, 1, 0]), (uint64ToBytes 2, [1, 2, 1, 0]),
      (uint64ToBytes 1, [1, 1, 1, 0])] = some (3, none) ∧
    DeleteRange noFaults [(uint64ToBytes 3, [1, 3, 1, 0]), (uint64ToBytes 2, [1, 2, 1, 0]),
      (uint64ToBytes 1, [1, 1, 1, 0])] 1 2 = some (none, [(uint64ToBytes 3, [1, 3, 1, 0])]) ∧
    FirstIndex [(uint64ToBytes 3, [1, 3, 1, 0])] = some (3, none) ∧
    LastIndex [(uint64ToBytes 3, [1, 3, 1, 0])] = some (3, none) ∧
    GetLog noFaults demoCodec [(uint64ToBytes 3, [1, 3, 1, 0])] 1 = .error .ErrLogNotFound ∧
    GetLog noFaults demoCodec [(uint64ToBytes 3, [1, 3, 1, 0])] 2 = .error .ErrLogNotFound ∧
    GetLog noFaults demoCodec [(uint64ToBytes 3, [1, 3, 1, 0])] 3 = .ok ⟨3, 1, 0, []⟩ :=
  ⟨by decide, by decide, by decide, by decide, by decide, by decide, rfl, rfl, rfl⟩

end raftbadger
